import Mathlib

/-!
Verification of the `scm-workbench` wrapper layer: a shallow embedding of
`wb_git_project.py` (the `GitProject`, `WbGitFileState`, `GitCommitLogNode`
and `GitProjectTreeNode` classes) and of `wb_diff_view.py`
(`WbDiffView.setUnifiedDiffText`), together with theorems settling the
frozen claims about them.

Python dictionaries are embedded as insertion-ordered association lists
with unique keys (`ainsert` overwrites in place, appends fresh keys at the
end, exactly like CPython dict assignment).  Python sets are embedded as
duplicate-free lists; `set.remove` becomes the partial `sremove`, which
fails (Python raises `KeyError`) when the element is absent.  Assertions
and exceptions are embedded with `Except String`.
-/

/-- Lookup in an association list, first (and only) binding of the key. -/
def alookup {α : Type} : List (String × α) → String → Option α
  | [], _ => none
  | (k, v) :: rest, key => if k = key then some v else alookup rest key

/-- Dictionary assignment `d[key] = val`: overwrite in place, append fresh keys. -/
def ainsert {α : Type} : List (String × α) → String → α → List (String × α)
  | [], key, val => [(key, val)]
  | (k, v) :: rest, key, val =>
      if k = key then (k, val) :: rest else (k, v) :: ainsert rest key val

/-- Key list of a dictionary, in insertion order. -/
def dkeys {α : Type} (d : List (String × α)) : List String := d.map Prod.fst

/-- Python `set.remove`: erase the element, or fail (KeyError) when absent. -/
def sremove : List String → String → Option (List String)
  | [], _ => none
  | x :: rest, y =>
      if x = y then some rest
      else match sremove rest y with
        | some rest2 => some (x :: rest2)
        | none => none

/-- Success test for the `Except` embedding of Python exceptions. -/
def isOkE {ε α : Type} : Except ε α → Bool
  | .ok _ => true
  | .error _ => false

/-- Embedding of a `git.diff.Diff` object as the wrapper consumes it:
the two blob ids (by content hash), the two paths, and the boolean
properties the wrapper reads.  For `IndexFile.diff(other)` the index is
the `a` side and `other` (HEAD, or the working tree for `diff(None)`)
is the `b` side. -/
structure Diff where
  a_path : String
  b_path : String
  a_blob : Option String
  b_blob : Option String
  new_file : Bool
  deleted_file : Bool
  renamed : Bool
deriving DecidableEq, Repr

/-- Embedding of `WbGitFileState.__init__(repo, index_entry)`; an index
entry is represented by its path. -/
structure WbGitFileState where
  index_entry : Option String
  unstaged_diff : Option Diff
  staged_diff : Option Diff
  untracked : Bool
  state_calculated : Bool
  staged_is_modified : Bool
  unstaged_is_modified : Bool
  staged_abbrev : Option String
  unstaged_abbrev : Option String
  head_blob : Option String
  staged_blob : Option String
deriving DecidableEq, Repr

/-- Constructor `WbGitFileState(repo, index_entry)`. -/
def mkWbGitFileState (entry : Option String) : WbGitFileState :=
  { index_entry := entry
    unstaged_diff := none
    staged_diff := none
    untracked := false
    state_calculated := false
    staged_is_modified := false
    unstaged_is_modified := false
    staged_abbrev := none
    unstaged_abbrev := none
    head_blob := none
    staged_blob := none }

/-- Method `WbGitFileState._addStaged`. -/
def WbGitFileState.addStaged (s : WbGitFileState) (diff : Diff) : WbGitFileState :=
  { s with state_calculated := false, staged_diff := some diff }

/-- Method `WbGitFileState._addUnstaged`. -/
def WbGitFileState.addUnstaged (s : WbGitFileState) (diff : Diff) : WbGitFileState :=
  { s with state_calculated := false, unstaged_diff := some diff }

/-- Method `WbGitFileState._setUntracked`. -/
def WbGitFileState.setUntracked (s : WbGitFileState) : WbGitFileState :=
  { s with untracked := true }

/-- Method `WbGitFileState.__calculateState`: an early return when the
cached classification is valid, otherwise the staged branch then the
unstaged branch, finally marking the cache valid. -/
def WbGitFileState.calculateState (s : WbGitFileState) : WbGitFileState :=
  if s.state_calculated then s
  else
    let s1 :=
      match s.staged_diff with
      | none => { s with staged_abbrev := some "" }
      | some d =>
          if d.renamed then { s with staged_abbrev := some "R" }
          else if d.deleted_file then { s with staged_abbrev := some "A" }
          else if d.new_file then { s with staged_abbrev := some "D" }
          else { s with staged_abbrev := some "M", staged_is_modified := true,
                        head_blob := d.b_blob, staged_blob := d.a_blob }
    let s2 :=
      match s1.unstaged_diff with
      | none => { s1 with unstaged_abbrev := some "" }
      | some d =>
          if d.deleted_file then { s1 with unstaged_abbrev := some "D" }
          else if d.new_file then { s1 with unstaged_abbrev := some "A" }
          else
            let s3 := { s1 with unstaged_abbrev := some "M", unstaged_is_modified := true }
            if s3.head_blob = none then { s3 with head_blob := d.a_blob } else s3
    { s2 with state_calculated := true }

/-- Method `getStagedAbbreviatedStatus`. -/
def WbGitFileState.getStagedAbbreviatedStatus (s : WbGitFileState) : Option String :=
  s.calculateState.staged_abbrev

/-- Method `getUnstagedAbbreviatedStatus`. -/
def WbGitFileState.getUnstagedAbbreviatedStatus (s : WbGitFileState) : Option String :=
  s.calculateState.unstaged_abbrev

/-- Method `isStagedNew`. -/
def WbGitFileState.isStagedNew (s : WbGitFileState) : Bool :=
  s.calculateState.staged_abbrev = some "A"

/-- Method `isStagedModified`. -/
def WbGitFileState.isStagedModified (s : WbGitFileState) : Bool :=
  s.calculateState.staged_abbrev = some "M"

/-- Method `isStagedDeleted`. -/
def WbGitFileState.isStagedDeleted (s : WbGitFileState) : Bool :=
  s.calculateState.staged_abbrev = some "D"

/-- Method `isUnstagedModified`. -/
def WbGitFileState.isUnstagedModified (s : WbGitFileState) : Bool :=
  s.calculateState.unstaged_abbrev = some "M"

/-- Method `isUnstagedDeleted`. -/
def WbGitFileState.isUnstagedDeleted (s : WbGitFileState) : Bool :=
  s.calculateState.unstaged_abbrev = some "D"

/-- Method `isUntracked`. -/
def WbGitFileState.isUntracked (s : WbGitFileState) : Bool :=
  s.untracked

/-- Embedding of a git tree object: the blob entries directly inside it
(repository-relative path and content hash, as `blob.path` and
`blob.hexsha`) and its subtree children (`tree.trees`). -/
inductive GitTree where
  | node (blobs : List (String × String)) (trees : List GitTree)
deriving Repr

mutual

/-- Method `GitProject.__treeToDict`: record every blob of the tree in
the accumulated dictionary, then recurse into the subtrees. -/
def treeToDict (t : GitTree) (acc : List (String × String)) : List (String × String) :=
  match t with
  | .node blobs trees =>
      treeToDictList trees (blobs.foldl (fun a b => ainsert a b.1 b.2) acc)

/-- Iteration of `GitProject.__treeToDict` over `tree.trees`. -/
def treeToDictList (ts : List GitTree) (acc : List (String × String)) : List (String × String) :=
  match ts with
  | [] => acc
  | t :: rest => treeToDictList rest (treeToDict t acc)

end

mutual

/-- Paths of all blobs reachable in a tree, nested subtrees included
(specification-side description of what `__treeToDict` collects). -/
def treeBlobPaths (t : GitTree) : List String :=
  match t with
  | .node blobs trees => blobs.map Prod.fst ++ treeBlobPathsList trees

/-- Paths of all blobs reachable in a list of trees. -/
def treeBlobPathsList (ts : List GitTree) : List String :=
  match ts with
  | [] => []
  | t :: rest => treeBlobPaths t ++ treeBlobPathsList rest

end

/-- Embedding of the commit object wrapped by `GitCommitLogNode`: its
tree and the trees of its parent commits in order (`commit.parents` is
only ever consulted for emptiness and for `parents[0].tree`). -/
structure GitCommit where
  tree : GitTree
  parentTrees : List GitTree

/-- Method `GitCommitLogNode.commitPreviousTree`: `None` when the commit
has no parents, otherwise the first parent's tree. -/
def commitPreviousTree (c : GitCommit) : Option GitTree :=
  match c.parentTrees with
  | [] => none
  | t :: _ => some t

/-- Change triple (change kind, path, old path) as appended by
`GitCommitLogNode._addChanges`. -/
abbrev Change := String × String × String

/-- Method `GitCommitLogNode._addChanges`: emit the additions, then the
deletions, then the renames, then the modifications. -/
def addChangesList (all_added all_deleted : List String)
    (all_renamed : List (String × String)) (all_modified : List String) : List Change :=
  all_added.map (fun name => ("A", name, "")) ++
  all_deleted.map (fun name => ("D", name, "")) ++
  all_renamed.map (fun p => ("R", p.1, p.2)) ++
  all_modified.map (fun name => ("M", name, ""))

/-- Rename-detection loop of `GitProject.__addCommitChangeInformation`:
iterate over the snapshot `list(all_added)`; for each added name whose
blob id appears in `all_old_id_to_name`, remove the name from the added
set and the matched old name from the deleted set (`set.remove` raises
`KeyError` when the element is absent) and record the rename pair. -/
def renameLoop (all_new all_old_id_to_name : List (String × String)) :
    List String → List String → List String → List (String × String) →
    Except String (List String × List String × List (String × String))
  | [], added, deleted, renamed => .ok (added, deleted, renamed)
  | name :: rest, added, deleted, renamed =>
      match alookup all_new name with
      | none => .error "KeyError"
      | some id2 =>
          match alookup all_old_id_to_name id2 with
          | none => renameLoop all_new all_old_id_to_name rest added deleted renamed
          | some old_name =>
              match sremove added name with
              | none => .error "KeyError"
              | some added2 =>
                  match sremove deleted old_name with
                  | none => .error "KeyError"
                  | some deleted2 =>
                      renameLoop all_new all_old_id_to_name rest added2 deleted2
                        (renamed ++ [(name, old_name)])

/-- Body of `GitProject.__addCommitChangeInformation` for one commit with
a first parent, starting from the two tree dictionaries. -/
def computeChangesFromDicts (all_new all_old : List (String × String)) :
    Except String (List Change) :=
  let new_set := dkeys all_new
  let old_set := dkeys all_old
  let all_added := new_set.filter (fun k => !(old_set.contains k))
  let all_deleted := old_set.filter (fun k => !(new_set.contains k))
  let rename_result :=
    if all_added.length > 0 then
      let all_old_id_to_name := all_old.foldl (fun m kv => ainsert m kv.2 kv.1) []
      renameLoop all_new all_old_id_to_name all_added all_added all_deleted []
    else .ok (all_added, all_deleted, [])
  match rename_result with
  | .error e => .error e
  | .ok (added2, deleted2, renamed) =>
      let all_modified := new_set.filter (fun key =>
        match alookup all_old key, alookup all_new key with
        | some ov, some nv => decide (nv ≠ ov)
        | _, _ => false)
      .ok (addChangesList added2 deleted2 renamed all_modified)

/-- Method `GitProject.__addCommitChangeInformation` for one commit log
node: diff the commit's tree dictionary against its first parent's, or
report every path as an addition when there is no parent. -/
def addCommitChangeInformation (c : GitCommit) : Except String (List Change) :=
  let all_new := treeToDict c.tree []
  match commitPreviousTree c with
  | none => .ok (addChangesList (dkeys all_new) [] [] [])
  | some old_tree => computeChangesFromDicts all_new (treeToDict old_tree [])

/-- Embedding of Python `path.split('/')` on the string's characters. -/
def pySplit (p : String) : List String :=
  (p.data.splitOn '/').map (fun cs => String.mk cs)

/-- Embedding of Python `'/'.join(parts)`. -/
def pyJoin (parts : List String) : String :=
  String.mk (List.intercalate ['/'] (parts.map String.data))

/-- Embedding of `GitProjectTreeNode`: a name, a relative path
(`pathlib.Path` rendered as its string), the child-folder dictionary and
the file-name dictionary. -/
inductive TreeNode where
  | mk (name : String) (relativePath : String)
      (all_folders : List (String × TreeNode))
      (all_files : List (String × String))

/-- Field `GitProjectTreeNode.name`. -/
def TreeNode.name : TreeNode → String
  | .mk n _ _ _ => n

/-- Method `GitProjectTreeNode.relativePath`. -/
def TreeNode.relativePath : TreeNode → String
  | .mk _ p _ _ => p

/-- Field `GitProjectTreeNode.all_folders`. -/
def TreeNode.all_folders : TreeNode → List (String × TreeNode)
  | .mk _ _ fo _ => fo

/-- Field `GitProjectTreeNode.all_files`. -/
def TreeNode.all_files : TreeNode → List (String × String)
  | .mk _ _ _ fi => fi

/-- Descent loop of `GitProject.__updateTree`: walk down the directory
components, reusing an existing child folder node or creating a fresh one
whose relative path is the '/'-join of the components consumed so far,
and finally record the file name in the reached node.  `pre` is the list
of components already consumed (`path_parts[0:depth]`). -/
def insertPath : TreeNode → List String → List String → String → TreeNode
  | node, _, [], _ => node
  | .mk name rpath folders files, _, [last], full =>
      .mk name rpath folders (ainsert files last full)
  | .mk name rpath folders files, pre, d :: rest, full =>
      let child :=
        match alookup folders d with
        | some c => c
        | none => TreeNode.mk d (pyJoin (pre ++ [d])) [] []
      let child2 := insertPath child (pre ++ [d]) rest full
      .mk name rpath (ainsert folders d child2) files

/-- Method `GitProject.__updateTree`. -/
def updateTree (path : String) (tree : TreeNode) : TreeNode :=
  insertPath tree [] (pySplit path) path

/-- Walk from a node through `all_folders` by each component in order. -/
def descend : TreeNode → List String → Option TreeNode
  | n, [] => some n
  | n, d :: ds =>
      match alookup n.all_folders d with
      | some c => descend c ds
      | none => none

/-- Observable repository contents consumed by
`GitProject.__calculateStatus`: the index entries (by path), the
`index.diff(HEAD)` list, the `index.diff(None)` list, and the untracked
files. -/
structure RepoData where
  index_entries : List String
  head_vs_index : List Diff
  index_vs_working : List Diff
  untracked_files : List String

/-- Embedding of the `GitProject` state this layer owns: the project
name, the flat status map, the presentation tree, the two index flags
and the staged-file count. -/
structure GitProject where
  project_name : String
  all_file_state : List (String × WbGitFileState)
  tree : TreeNode
  dirty_index : Bool
  stale_index : Bool
  num_staged_files : Nat

/-- Pattern `if key not in d: d[key] = dflt` followed by a mutation of
`d[key]`, as used throughout `__calculateStatus`. -/
def aadjust (d : List (String × WbGitFileState)) (key : String)
    (f : WbGitFileState → WbGitFileState) : List (String × WbGitFileState) :=
  match alookup d key with
  | some v => ainsert d key (f v)
  | none => ainsert d key (f (mkWbGitFileState none))

/-- Method `GitProject.__calculateStatus`: seed the map from the index
entries, fold in the staged diffs (counting them), the unstaged diffs,
and the untracked files.  Returns the new `all_file_state` and
`__num_staged_files`. -/
def calculateStatus (r : RepoData) : List (String × WbGitFileState) × Nat :=
  let s0 := r.index_entries.foldl
    (fun d e => ainsert d e (mkWbGitFileState (some e))) []
  let s1 := r.head_vs_index.foldl
    (fun d diff => aadjust d diff.b_path (fun fs => fs.addStaged diff)) s0
  let s2 := r.index_vs_working.foldl
    (fun d diff => aadjust d diff.a_path (fun fs => fs.addUnstaged diff)) s1
  let s3 := r.untracked_files.foldl
    (fun d p => aadjust d p (fun fs => fs.setUntracked)) s2
  (s3, r.head_vs_index.length)

/-- Method `GitProject.updateState`: assert the index is not dirty,
rebuild the tree from a fresh root, recompute the status map, then
insert every path of the map into the tree. -/
def GitProject.updateState (p : GitProject) (r : RepoData) : Except String GitProject :=
  if p.dirty_index then .error "repo is dirty, forgot to call saveChanges?"
  else
    let root := TreeNode.mk p.project_name "." [] []
    let cs := calculateStatus r
    let tree := (dkeys cs.1).foldl (fun t path => updateTree path t) root
    .ok { p with tree := tree, all_file_state := cs.1, num_staged_files := cs.2 }

/-- Method `GitProject.saveChanges`: assert something changed, write the
index exactly when the dirty flag is set, clear both flags, then refresh
via `updateState`.  The boolean records whether `repo.index.write()` ran. -/
def GitProject.saveChanges (p : GitProject) (r : RepoData) :
    Except String (GitProject × Bool) :=
  if p.dirty_index || p.stale_index then
    let wrote := p.dirty_index
    let p2 := { p with dirty_index := false, stale_index := false }
    match p2.updateState r with
    | .ok q => .ok (q, wrote)
    | .error e => .error e
  else .error "Only call saveChanges if something was changed"

/-- Method `GitProject.cmdStage`: run `git add` (an external effect on
the repository) and mark the index stale. -/
def GitProject.cmdStage (p : GitProject) (filename : String) : GitProject :=
  { p with stale_index := true }

/-- Method `GitProject.cmdUnstage`. -/
def GitProject.cmdUnstage (p : GitProject) (rev filename : String) : GitProject :=
  { p with stale_index := true }

/-- Method `GitProject.cmdRevert`. -/
def GitProject.cmdRevert (p : GitProject) (rev filename : String) : GitProject :=
  { p with stale_index := true }

/-- Method `GitProject.cmdDelete`. -/
def GitProject.cmdDelete (p : GitProject) (filename : String) : GitProject :=
  { p with stale_index := true }

/-- Method `GitProject.cmdCommit`. -/
def GitProject.cmdCommit (p : GitProject) (message : String) : GitProject :=
  { p with stale_index := true }

/-- Method `GitProject.getFileState`: a plain dictionary subscript, so a
missing key raises `KeyError`. -/
def GitProject.getFileState (p : GitProject) (filename : String) :
    Except String WbGitFileState :=
  match alookup p.all_file_state filename with
  | some fs => .ok fs
  | none => .error "KeyError"

/-- Method `GitProjectTreeNode.getStatusEntry`: look the name up in
`all_files` (KeyError when absent), then take the project's status entry
for that path, or a fresh `WbGitFileState(repo, None)` when the path has
no status entry. -/
def TreeNode.getStatusEntry (node : TreeNode) (p : GitProject) (name : String) :
    Except String WbGitFileState :=
  match alookup node.all_files name with
  | none => .error "KeyError"
  | some path =>
      match alookup p.all_file_state path with
      | some entry => .ok entry
      | none => .ok (mkWbGitFileState none)

/-- Value of a keyword argument passed to `repo.iter_commits`. -/
inductive KwVal where
  | nat (n : Nat)
  | date (d : String)
  | null
deriving DecidableEq, Repr

/-- Keyword-argument dictionary built by `GitProject.cmdCommitLogForRepository`:
`max_count` when a limit is given, `since` when since is given, and
`until` — possibly an explicit `None` — exactly when since is given. -/
def cmdCommitLogForRepositoryKwds (limit : Option Nat) (since until2 : Option String) :
    List (String × KwVal) :=
  let kwds : List (String × KwVal) := []
  let kwds := match limit with
    | some l => ainsert kwds "max_count" (KwVal.nat l)
    | none => kwds
  let kwds := match since with
    | some s => ainsert kwds "since" (KwVal.date s)
    | none => kwds
  let kwds := match since with
    | some _ => ainsert kwds "until"
        (match until2 with | some u => KwVal.date u | none => KwVal.null)
    | none => kwds
  kwds

/-- Keyword-argument dictionary built by `GitProject.cmdCommitLogForFile`,
textually the same construction as in `cmdCommitLogForRepository`. -/
def cmdCommitLogForFileKwds (limit : Option Nat) (since until2 : Option String) :
    List (String × KwVal) :=
  let kwds : List (String × KwVal) := []
  let kwds := match limit with
    | some l => ainsert kwds "max_count" (KwVal.nat l)
    | none => kwds
  let kwds := match since with
    | some s => ainsert kwds "since" (KwVal.date s)
    | none => kwds
  let kwds := match since with
    | some _ => ainsert kwds "until"
        (match until2 with | some u => KwVal.date u | none => KwVal.null)
    | none => kwds
  kwds

/-- Text styles of `WbDiffView`. -/
inductive Style where
  | header
  | normal
  | add
  | del
deriving DecidableEq, Repr

/-- Method `WbDiffView.setUnifiedDiffText`: classify each line by
`line[0]` and append `line + '\n'` in that style; indexing `line[0]` on
an empty string raises `IndexError`, which aborts the loop.  The result
is the list of styled strings actually written and whether the
exception was raised. -/
def setUnifiedDiffText : List String → List (String × Style) × Bool
  | [] => ([], false)
  | line :: rest =>
      match line.data with
      | [] => ([], true)
      | c :: _ =>
          let style :=
            if c = '-' then Style.del
            else if c = '+' then Style.add
            else if c = ' ' then Style.normal
            else Style.header
          let r := setUnifiedDiffText rest
          ((line ++ "\n", style) :: r.1, r.2)

/-- Classification of a non-empty line by its first character, as the
claim states it. -/
def firstCharStyle (line : String) : Style :=
  match line.data with
  | [] => Style.header
  | c :: _ =>
      if c = '-' then Style.del
      else if c = '+' then Style.add
      else if c = ' ' then Style.normal
      else Style.header

/-! Helper lemmas about `WbGitFileState.calculateState`. -/

/-- Cache flag is set after any call to `__calculateState`. -/
lemma calculateState_flag (s : WbGitFileState) :
    s.calculateState.state_calculated = true := by
  unfold WbGitFileState.calculateState
  by_cases h : s.state_calculated
  · simp [h]
  · simp only [h, if_false]
    cases hd : s.staged_diff <;> cases hu : s.unstaged_diff <;>
      simp [hd, hu] <;> split <;> split <;> simp

/-- Early return of `__calculateState` when the cache flag is set. -/
lemma calculateState_of_calculated (s : WbGitFileState)
    (h : s.state_calculated = true) : s.calculateState = s := by
  unfold WbGitFileState.calculateState
  simp [h]

/-- Second and later calls to `__calculateState` return the cache unchanged. -/
lemma calculateState_idem (s : WbGitFileState) :
    s.calculateState.calculateState = s.calculateState :=
  calculateState_of_calculated _ (calculateState_flag s)

/-- Staged abbreviated status computed by `__calculateState` from the
staged diff. -/
lemma calculateState_staged_abbrev (s : WbGitFileState)
    (h : s.state_calculated = false) :
    s.calculateState.staged_abbrev =
      some (match s.staged_diff with
        | none => ""
        | some d =>
            if d.renamed then "R" else if d.deleted_file then "A"
            else if d.new_file then "D" else "M") := by
  unfold WbGitFileState.calculateState
  simp only [h, Bool.false_eq_true, if_false]
  cases hd : s.staged_diff <;> cases hu : s.unstaged_diff
  · simp [hd, hu]
  · rename_i u
    by_cases h1 : u.deleted_file = true <;> by_cases h2 : u.new_file = true <;>
      simp [hd, hu, h1, h2] <;> (try (split <;> rfl))
  · rename_i d
    by_cases hr : d.renamed = true <;> by_cases h3 : d.deleted_file = true <;>
      by_cases h4 : d.new_file = true <;> simp [hd, hu, hr, h3, h4]
  · rename_i d u
    by_cases hr : d.renamed = true <;> by_cases h3 : d.deleted_file = true <;>
      by_cases h4 : d.new_file = true <;> by_cases h1 : u.deleted_file = true <;>
      by_cases h2 : u.new_file = true <;>
      simp [hd, hu, hr, h3, h4, h1, h2] <;> (try (split <;> rfl))

/-- Unstaged abbreviated status computed by `__calculateState` from the
unstaged diff. -/
lemma calculateState_unstaged_abbrev (s : WbGitFileState)
    (h : s.state_calculated = false) :
    s.calculateState.unstaged_abbrev =
      some (match s.unstaged_diff with
        | none => ""
        | some u =>
            if u.deleted_file then "D" else if u.new_file then "A" else "M") := by
  unfold WbGitFileState.calculateState
  simp only [h, Bool.false_eq_true, if_false]
  cases hd : s.staged_diff <;> cases hu : s.unstaged_diff
  · simp [hd, hu]
  · rename_i u
    by_cases h1 : u.deleted_file = true <;> by_cases h2 : u.new_file = true <;>
      simp [hd, hu, h1, h2] <;> (try (split <;> rfl))
  · rename_i d
    by_cases hr : d.renamed = true <;> by_cases h3 : d.deleted_file = true <;>
      by_cases h4 : d.new_file = true <;> simp [hd, hu, hr, h3, h4]
  · rename_i d u
    by_cases hr : d.renamed = true <;> by_cases h3 : d.deleted_file = true <;>
      by_cases h4 : d.new_file = true <;> by_cases h1 : u.deleted_file = true <;>
      by_cases h2 : u.new_file = true <;>
      simp [hd, hu, hr, h3, h4, h1, h2] <;> (try (split <;> rfl))

/-- C9.  `WbDiffView.setUnifiedDiffText` classifies every line solely by
its first character ('-' delete, '+' add, ' ' normal, anything else
header); it indexes `line[0]` unconditionally, so an input list holding
an empty string makes the operation fail with an index error after
rendering only the lines before the empty one. -/
theorem setUnifiedDiffText_first_char_and_empty_failure (all_lines : List String) :
    setUnifiedDiffText all_lines =
      ((all_lines.takeWhile (fun l => !l.data.isEmpty)).map
          (fun l => (l ++ "\n", firstCharStyle l)),
        all_lines.any (fun l => l.data.isEmpty)) := by
  induction all_lines with
  | nil => rfl
  | cons line rest ih =>
      cases h : line.data with
      | nil =>
          simp [setUnifiedDiffText, h, List.takeWhile_cons, List.any_cons]
      | cons c cs =>
          simp [setUnifiedDiffText, h, List.takeWhile_cons, List.any_cons, ih,
            firstCharStyle]

/-- Guarantees the wrapped library provides for an entry of
`index.diff(HEAD)` (the index is the `a` side, HEAD the `b` side): the
`new_file` and `deleted_file` properties mirror the missing blob, a diff
entry has at least one blob, and a non-rename entry with both blobs
present has differing blob ids. -/
def Diff.wfStagedDiff (d : Diff) : Prop :=
  (d.new_file = true ↔ d.a_blob = none) ∧
  (d.deleted_file = true ↔ d.b_blob = none) ∧
  (d.a_blob = none → d.b_blob ≠ none) ∧
  (d.renamed = false → d.a_blob ≠ none → d.b_blob ≠ none → d.a_blob ≠ d.b_blob)

/-- C3.  For a file state carrying a staged diff (index vs HEAD),
`isStagedNew` holds exactly when the file is newly added to the index
(present on the index side, absent from HEAD), `isStagedDeleted`
exactly when it was removed from the index (present in HEAD only),
`isStagedModified` exactly when it is present on both sides with
differing blob ids, and a renamed entry is classified 'R' in preference
to all other codes. -/
theorem stagedDiff_classification (s : WbGitFileState) (d : Diff)
    (hcalc : s.state_calculated = false) (hd : s.staged_diff = some d)
    (hwf : d.wfStagedDiff) :
    (s.isStagedNew = true ↔
        (d.renamed = false ∧ d.a_blob ≠ none ∧ d.b_blob = none)) ∧
    (s.isStagedDeleted = true ↔
        (d.renamed = false ∧ d.a_blob = none ∧ d.b_blob ≠ none)) ∧
    (s.isStagedModified = true ↔
        (d.renamed = false ∧ d.a_blob ≠ none ∧ d.b_blob ≠ none ∧
          d.a_blob ≠ d.b_blob)) ∧
    (d.renamed = true →
        (s.getStagedAbbreviatedStatus = some "R" ∧ s.isStagedNew = false ∧
          s.isStagedDeleted = false ∧ s.isStagedModified = false)) := by
  obtain ⟨hwf1, hwf2, hwf3, hwf4⟩ := hwf
  have habv := calculateState_staged_abbrev s hcalc
  rw [hd] at habv
  unfold WbGitFileState.isStagedNew WbGitFileState.isStagedDeleted
    WbGitFileState.isStagedModified WbGitFileState.getStagedAbbreviatedStatus
  rw [habv]
  cases hr : d.renamed <;> cases hdf : d.deleted_file <;> cases hnf : d.new_file <;>
    simp_all

/-- Concrete staged diff for the C3 witness: newly staged file, present
on the index side only. -/
def witnessStagedDiff : Diff :=
  { a_path := "f", b_path := "f", a_blob := some "x", b_blob := none,
    new_file := false, deleted_file := true, renamed := false }

/-- Concrete file state for the C3 witness. -/
def witnessFileState : WbGitFileState :=
  (mkWbGitFileState none).addStaged witnessStagedDiff

/-- Witness for C3 at a concrete newly staged file. -/
theorem stagedDiff_classification_witness :
    (witnessFileState.isStagedNew = true ↔
        (witnessStagedDiff.renamed = false ∧ witnessStagedDiff.a_blob ≠ none ∧
          witnessStagedDiff.b_blob = none)) ∧
    (witnessFileState.isStagedDeleted = true ↔
        (witnessStagedDiff.renamed = false ∧ witnessStagedDiff.a_blob = none ∧
          witnessStagedDiff.b_blob ≠ none)) ∧
    (witnessFileState.isStagedModified = true ↔
        (witnessStagedDiff.renamed = false ∧ witnessStagedDiff.a_blob ≠ none ∧
          witnessStagedDiff.b_blob ≠ none ∧
          witnessStagedDiff.a_blob ≠ witnessStagedDiff.b_blob)) ∧
    (witnessStagedDiff.renamed = true →
        (witnessFileState.getStagedAbbreviatedStatus = some "R" ∧
          witnessFileState.isStagedNew = false ∧
          witnessFileState.isStagedDeleted = false ∧
          witnessFileState.isStagedModified = false)) :=
  stagedDiff_classification witnessFileState witnessStagedDiff rfl rfl
    ⟨by decide, by decide, by decide, by decide⟩

/-- C5.  The classification is computed lazily on the first accessor
call and cached: after computation the staged abbreviated status lies in
{'', 'A', 'M', 'D', 'R'} and the unstaged one in {'', 'A', 'M', 'D'};
repeated calls return the cache unchanged; `_addStaged` and
`_addUnstaged` clear the cache flag, so the next accessor call
recomputes the classification from the new diffs whatever was cached. -/
theorem fileState_lazy_cached_classification (s : WbGitFileState) (d u : Diff)
    (h : s.state_calculated = false) :
    (s.calculateState.staged_abbrev ∈
        [some "", some "A", some "M", some "D", some "R"]) ∧
    (s.calculateState.unstaged_abbrev ∈
        [some "", some "A", some "M", some "D"]) ∧
    (s.calculateState.state_calculated = true) ∧
    (s.calculateState.calculateState = s.calculateState) ∧
    ((s.addStaged d).state_calculated = false ∧
      (s.addUnstaged u).state_calculated = false) ∧
    (∀ s2 : WbGitFileState, (s2.addStaged d).getStagedAbbreviatedStatus =
        some (if d.renamed then "R" else if d.deleted_file then "A"
              else if d.new_file then "D" else "M")) ∧
    (∀ s2 : WbGitFileState, (s2.addUnstaged u).getUnstagedAbbreviatedStatus =
        some (if u.deleted_file then "D" else if u.new_file then "A" else "M")) := by
  refine ⟨?_, ?_, calculateState_flag s, calculateState_idem s, ⟨rfl, rfl⟩, ?_, ?_⟩
  · rw [calculateState_staged_abbrev s h]
    cases hsd : s.staged_diff
    · simp
    · rename_i d2
      by_cases h1 : d2.renamed = true <;> by_cases h2 : d2.deleted_file = true <;>
        by_cases h3 : d2.new_file = true <;> simp [h1, h2, h3]
  · rw [calculateState_unstaged_abbrev s h]
    cases hud : s.unstaged_diff
    · simp
    · rename_i u2
      by_cases h1 : u2.deleted_file = true <;> by_cases h2 : u2.new_file = true <;>
        simp [h1, h2]
  · intro s2
    have h2 := calculateState_staged_abbrev (s2.addStaged d) rfl
    simpa [WbGitFileState.getStagedAbbreviatedStatus, WbGitFileState.addStaged] using h2
  · intro s2
    have h2 := calculateState_unstaged_abbrev (s2.addUnstaged u) rfl
    simpa [WbGitFileState.getUnstagedAbbreviatedStatus, WbGitFileState.addUnstaged] using h2

/-- Concrete unstaged diff for the C5 witness: working-copy
modification with both blobs present. -/
def witnessUnstagedDiff : Diff :=
  { a_path := "g", b_path := "g", a_blob := some "y", b_blob := some "z",
    new_file := false, deleted_file := false, renamed := false }

/-- Witness for C5 at a concrete fresh file state. -/
theorem fileState_lazy_cached_classification_witness :
    ((mkWbGitFileState none).calculateState.staged_abbrev ∈
        [some "", some "A", some "M", some "D", some "R"]) ∧
    ((mkWbGitFileState none).calculateState.state_calculated = true) ∧
    (∀ s2 : WbGitFileState,
      (s2.addStaged witnessStagedDiff).getStagedAbbreviatedStatus = some "A") ∧
    (∀ s2 : WbGitFileState,
      (s2.addUnstaged witnessUnstagedDiff).getUnstagedAbbreviatedStatus = some "M") := by
  have h := fileState_lazy_cached_classification (mkWbGitFileState none)
    witnessStagedDiff witnessUnstagedDiff rfl
  refine ⟨h.1, h.2.2.1, fun s2 => ?_, fun s2 => ?_⟩
  · simpa using h.2.2.2.2.2.1 s2
  · simpa using h.2.2.2.2.2.2 s2

/-- C2.  Every mutating command sets the stale-index flag; `saveChanges`
succeeds exactly when the index is dirty or stale (asserting otherwise),
reports an index write exactly when the dirty flag was set, clears both
flags and recomputes the whole state via `updateState`; `updateState`
itself succeeds exactly when the index is not dirty. -/
theorem gitProject_index_flag_protocol (p : GitProject) (r : RepoData)
    (fn rev msg : String) :
    ((p.cmdStage fn).stale_index = true ∧ (p.cmdUnstage rev fn).stale_index = true ∧
      (p.cmdRevert rev fn).stale_index = true ∧ (p.cmdDelete fn).stale_index = true ∧
      (p.cmdCommit msg).stale_index = true) ∧
    (isOkE (p.saveChanges r) = (p.dirty_index || p.stale_index)) ∧
    (∀ q wrote, p.saveChanges r = .ok (q, wrote) →
        wrote = p.dirty_index ∧ q.dirty_index = false ∧ q.stale_index = false ∧
        GitProject.updateState
          { p with dirty_index := false, stale_index := false } r = .ok q) ∧
    (isOkE (p.updateState r) = !p.dirty_index) := by
  refine ⟨⟨rfl, rfl, rfl, rfl, rfl⟩, ?_, ?_, ?_⟩
  · cases hdi : p.dirty_index <;> cases hst : p.stale_index <;>
      simp [GitProject.saveChanges, GitProject.updateState, isOkE, hdi, hst]
  · intro q wrote hok
    cases hdi : p.dirty_index <;> cases hst : p.stale_index <;>
      simp [GitProject.saveChanges, GitProject.updateState, hdi, hst] at hok <;>
      obtain ⟨hq, hw⟩ := hok <;> subst hq <;> subst hw <;>
      exact ⟨rfl, rfl, rfl, rfl⟩
  · cases hdi : p.dirty_index <;> simp [GitProject.updateState, isOkE, hdi]

/-- Trivial repository contents for witnesses. -/
def witnessRepo : RepoData :=
  { index_entries := [], head_vs_index := [], index_vs_working := [],
    untracked_files := [] }

/-- Project state with a stale, clean index for witnesses. -/
def witnessProj : GitProject :=
  { project_name := "p", all_file_state := [], tree := TreeNode.mk "p" "." [] [],
    dirty_index := false, stale_index := true, num_staged_files := 0 }

/-- Result of refreshing `witnessProj` against `witnessRepo`. -/
def witnessProjUpdated : GitProject :=
  { project_name := "p", all_file_state := [], tree := TreeNode.mk "p" "." [] [],
    dirty_index := false, stale_index := false, num_staged_files := 0 }

/-- Witness for C2 at a concrete stale project. -/
theorem gitProject_index_flag_protocol_witness :
    (witnessProj.cmdStage "f").stale_index = true ∧
    isOkE (witnessProj.saveChanges witnessRepo) =
      (witnessProj.dirty_index || witnessProj.stale_index) ∧
    (false = witnessProj.dirty_index ∧ witnessProjUpdated.dirty_index = false ∧
      witnessProjUpdated.stale_index = false ∧
      GitProject.updateState
        { witnessProj with dirty_index := false, stale_index := false } witnessRepo
        = .ok witnessProjUpdated) := by
  have h := gitProject_index_flag_protocol witnessProj witnessRepo "f" "r" "m"
  exact ⟨h.1.1, h.2.1, h.2.2.1 witnessProjUpdated false rfl⟩

/-- C7.  `updateState` rebuilds the tree and the flat status map
wholesale: two project states of the same project, whatever their
previous trees, maps, counters or stale flags, refresh to equal trees,
equal status maps and equal staged counts over the same repository
contents. -/
theorem updateState_wholesale_rebuild (r : RepoData) (p1 p2 : GitProject)
    (hname : p1.project_name = p2.project_name)
    (h1 : p1.dirty_index = false) (h2 : p2.dirty_index = false) :
    ∃ q1 q2, p1.updateState r = .ok q1 ∧ p2.updateState r = .ok q2 ∧
      q1.tree = q2.tree ∧ q1.all_file_state = q2.all_file_state ∧
      q1.num_staged_files = q2.num_staged_files := by
  unfold GitProject.updateState
  rw [h1, h2]
  simp only [Bool.false_eq_true, if_false]
  exact ⟨_, _, rfl, rfl, by rw [hname], rfl, rfl⟩

/-- Project state with stale junk in the tree and the status map, for
the C7 witness. -/
def witnessProjJunk : GitProject :=
  { project_name := "p",
    all_file_state := [("junk", mkWbGitFileState none)],
    tree := TreeNode.mk "p" "." [] [("x", "x")],
    dirty_index := false, stale_index := false, num_staged_files := 7 }

/-- Witness for C7: two states with different previous trees and maps. -/
theorem updateState_wholesale_rebuild_witness :
    ∃ q1 q2, witnessProj.updateState witnessRepo = .ok q1 ∧
      witnessProjJunk.updateState witnessRepo = .ok q2 ∧
      q1.tree = q2.tree ∧ q1.all_file_state = q2.all_file_state ∧
      q1.num_staged_files = q2.num_staged_files :=
  updateState_wholesale_rebuild witnessRepo witnessProj witnessProjJunk rfl rfl rfl

/-- C8.  In both commit-log commands the `until` keyword is passed to
the commit iterator exactly when `since` is given: with `since = None`
the until argument is ignored entirely, and with `since` given but
`until = None` an explicit `until` of `None` is still passed. -/
theorem cmdCommitLog_until_guarded_by_since (limit : Option Nat)
    (since until2 : Option String) :
    (cmdCommitLogForFileKwds limit since until2 =
      cmdCommitLogForRepositoryKwds limit since until2) ∧
    (∀ v : KwVal, ("until", v) ∈ cmdCommitLogForRepositoryKwds limit since until2 ↔
      (since.isSome = true ∧
        v = (match until2 with | some u => KwVal.date u | none => KwVal.null))) ∧
    (since = none →
      ∀ v : KwVal, ("until", v) ∉ cmdCommitLogForRepositoryKwds limit since until2) ∧
    (∀ s0 : String, since = some s0 → until2 = none →
      ("until", KwVal.null) ∈ cmdCommitLogForRepositoryKwds limit since until2) := by
  cases limit <;> cases since <;> cases until2 <;>
    simp [cmdCommitLogForRepositoryKwds, cmdCommitLogForFileKwds, ainsert]

/-- Witness for C8 at concrete argument combinations. -/
theorem cmdCommitLog_until_guarded_by_since_witness :
    (("until", KwVal.null) ∈ cmdCommitLogForRepositoryKwds (some 1) (some "s") none) ∧
    (∀ v : KwVal, ("until", v) ∉ cmdCommitLogForRepositoryKwds (some 1) none (some "u")) := by
  have h1 := cmdCommitLog_until_guarded_by_since (some 1) (some "s") none
  have h2 := cmdCommitLog_until_guarded_by_since (some 1) none (some "u")
  exact ⟨h1.2.2.2 "s" rfl rfl, h2.2.2.1 rfl⟩

/-- C10.  `getFileState` raises `KeyError` for any filename outside the
status map, while `getStatusEntry` never fails for a name present in the
node's `all_files`: when the mapped path has no status entry it returns
a fresh `WbGitFileState` with no index entry, no diffs, the untracked
flag unset, and both abbreviated statuses empty (unchanged). -/
theorem getFileState_raises_getStatusEntry_defaults (p : GitProject)
    (node : TreeNode) (fn name path : String)
    (hmiss : alookup p.all_file_state fn = none)
    (hname : alookup node.all_files name = some path) :
    p.getFileState fn = .error "KeyError" ∧
    (∃ entry, node.getStatusEntry p name = .ok entry) ∧
    (alookup p.all_file_state path = none →
      node.getStatusEntry p name = .ok (mkWbGitFileState none) ∧
      (mkWbGitFileState none).index_entry = none ∧
      (mkWbGitFileState none).staged_diff = none ∧
      (mkWbGitFileState none).unstaged_diff = none ∧
      (mkWbGitFileState none).isUntracked = false ∧
      (mkWbGitFileState none).getStagedAbbreviatedStatus = some "" ∧
      (mkWbGitFileState none).getUnstagedAbbreviatedStatus = some "") := by
  refine ⟨?_, ?_, ?_⟩
  · unfold GitProject.getFileState
    rw [hmiss]
  · unfold TreeNode.getStatusEntry
    rw [hname]
    cases h2 : alookup p.all_file_state path <;> simp [h2]
  · intro h2
    unfold TreeNode.getStatusEntry
    rw [hname]
    exact ⟨by simp [h2], rfl, rfl, rfl, rfl, rfl, rfl⟩

/-- Tree node mapping file name "f" to a path without a status entry,
for the C10 witness. -/
def witnessNode : TreeNode := TreeNode.mk "p" "." [] [("f", "d/f")]

/-- Witness for C10 at a concrete project and node. -/
theorem getFileState_raises_getStatusEntry_defaults_witness :
    witnessProj.getFileState "zzz" = .error "KeyError" ∧
    (∃ entry, witnessNode.getStatusEntry witnessProj "f" = .ok entry) ∧
    (witnessNode.getStatusEntry witnessProj "f" = .ok (mkWbGitFileState none) ∧
      (mkWbGitFileState none).index_entry = none ∧
      (mkWbGitFileState none).staged_diff = none ∧
      (mkWbGitFileState none).unstaged_diff = none ∧
      (mkWbGitFileState none).isUntracked = false ∧
      (mkWbGitFileState none).getStagedAbbreviatedStatus = some "" ∧
      (mkWbGitFileState none).getUnstagedAbbreviatedStatus = some "") := by
  have h := getFileState_raises_getStatusEntry_defaults witnessProj witnessNode
    "zzz" "f" "d/f" rfl rfl
  exact ⟨h.1, h.2.1, h.2.2 rfl⟩

/-- C1 (code bug).  A commit that merely copies an unmodified file makes
the rename-detection loop of `__addCommitChangeInformation` raise
`KeyError`: the added path "c" has the blob id of the old path "a",
which was not deleted, so `all_deleted.remove('a')` fails — instead of
the ('A', 'c', '') the claim prescribes for a path present only in the
new tree whose blob matches no deleted old path. -/
theorem addCommitChangeInformation_copied_file_keyError :
    addCommitChangeInformation
      { tree := GitTree.node [("a", "h"), ("c", "h")] [],
        parentTrees := [GitTree.node [("a", "h")] []] } = .error "KeyError" := by
  rfl

/-! Membership lemmas for the tree-to-dictionary conversion. -/

/-- Keys after a dictionary assignment are the old keys plus the new key. -/
lemma mem_dkeys_ainsert {α : Type} (d : List (String × α)) (k : String) (v : α)
    (x : String) : x ∈ dkeys (ainsert d k v) ↔ x ∈ dkeys d ∨ x = k := by
  simp only [dkeys]
  induction d with
  | nil => simp [ainsert]
  | cons hd tl ih =>
      obtain ⟨k0, v0⟩ := hd
      by_cases h : k0 = k
      · subst h
        simp [ainsert]
        tauto
      · simp [ainsert, h, ih]
        tauto

/-- Keys after folding dictionary assignments over the blob entries. -/
lemma mem_dkeys_foldl_ainsert (blobs : List (String × String))
    (acc : List (String × String)) (x : String) :
    x ∈ dkeys (blobs.foldl (fun a b => ainsert a b.1 b.2) acc) ↔
      x ∈ dkeys acc ∨ x ∈ blobs.map Prod.fst := by
  induction blobs generalizing acc with
  | nil => simp
  | cons b bs ih =>
      simp only [List.foldl_cons, List.map_cons, List.mem_cons]
      rw [ih, mem_dkeys_ainsert]
      tauto

mutual

/-- Keys collected by `__treeToDict` are the blob paths of the tree plus
the keys already accumulated. -/
lemma mem_treeToDict (t : GitTree) (acc : List (String × String)) (x : String) :
    x ∈ dkeys (treeToDict t acc) ↔ x ∈ treeBlobPaths t ∨ x ∈ dkeys acc := by
  cases t with
  | node blobs trees =>
      rw [treeToDict, treeBlobPaths, mem_treeToDictList trees _ x,
        mem_dkeys_foldl_ainsert]
      simp only [List.mem_append]
      tauto

/-- Keys collected by `__treeToDict` over a list of subtrees. -/
lemma mem_treeToDictList (ts : List GitTree) (acc : List (String × String))
    (x : String) :
    x ∈ dkeys (treeToDictList ts acc) ↔ x ∈ treeBlobPathsList ts ∨ x ∈ dkeys acc := by
  cases ts with
  | nil => simp [treeToDictList, treeBlobPathsList]
  | cons t rest =>
      rw [treeToDictList, treeBlobPathsList, mem_treeToDictList rest _ x,
        mem_treeToDict t _ x]
      simp only [List.mem_append]
      tauto

end

/-- C6.  For a commit log node whose commit has no parent, the derived
change list reports every blob path reachable in the commit's tree
(nested subtrees included) as an addition ('A', path, ''), and reports
no deletion, rename or modification entries. -/
theorem commitLogNode_no_parent_all_additions (c : GitCommit)
    (h : c.parentTrees = []) :
    ∃ cs, addCommitChangeInformation c = .ok cs ∧
      (∀ ch ∈ cs, ch.1 = "A" ∧ ch.2.2 = "") ∧
      (∀ p : String, (∃ ch ∈ cs, ch.2.1 = p) ↔ p ∈ treeBlobPaths c.tree) := by
  have hmem : ∀ x, x ∈ dkeys (treeToDict c.tree []) ↔ x ∈ treeBlobPaths c.tree := by
    intro x
    rw [mem_treeToDict]
    simp [dkeys]
  unfold addCommitChangeInformation commitPreviousTree
  rw [h]
  refine ⟨_, rfl, ?_, ?_⟩
  · intro ch hch
    simp [addChangesList] at hch
    obtain ⟨name, hn, rfl⟩ := hch
    exact ⟨rfl, rfl⟩
  · intro p
    rw [← hmem p]
    simp [addChangesList]

/-- Commit with a nested subtree and no parent, for the C6 witness. -/
def witnessRootCommit : GitCommit :=
  { tree := GitTree.node [("x", "1")] [GitTree.node [("d/y", "2")] []],
    parentTrees := [] }

/-- Witness for C6 at a concrete parentless commit. -/
theorem commitLogNode_no_parent_all_additions_witness :
    ∃ cs, addCommitChangeInformation witnessRootCommit = .ok cs ∧
      (∀ ch ∈ cs, ch.1 = "A" ∧ ch.2.2 = "") ∧
      (∀ p : String, (∃ ch ∈ cs, ch.2.1 = p) ↔
        p ∈ treeBlobPaths witnessRootCommit.tree) :=
  commitLogNode_no_parent_all_additions witnessRootCommit rfl

/-! Lemmas for the project-tree construction (claim C4). -/

/-- Assignment then lookup of the same key. -/
lemma alookup_ainsert_self {α : Type} (d : List (String × α)) (k : String) (v : α) :
    alookup (ainsert d k v) k = some v := by
  induction d with
  | nil => simp [ainsert, alookup]
  | cons hd tl ih =>
      obtain ⟨k0, v0⟩ := hd
      by_cases h : k0 = k <;> simp [ainsert, alookup, h, ih]

/-- Assignment leaves other keys' lookups unchanged. -/
lemma alookup_ainsert_ne {α : Type} (d : List (String × α)) (k : String) (v : α)
    (x : String) (h : x ≠ k) : alookup (ainsert d k v) x = alookup d x := by
  induction d with
  | nil =>
      simp [ainsert, alookup]
      exact fun hk => absurd hk.symm h
  | cons hd tl ih =>
      obtain ⟨k0, v0⟩ := hd
      by_cases h0 : k0 = k
      · subst h0
        have hx : ¬k0 = x := fun hk => h hk.symm
        simp [ainsert, alookup, hx]
      · simp [ainsert, alookup, h0, ih]

/-- Path `parts` of directory components followed by a final file name
leads from node `t` to a node whose `all_files` maps the file name to
`full` (the claim's descent property, phrased recursively). -/
def reachesFile : TreeNode → List String → String → Prop
  | _, [], _ => False
  | t, [last], full => alookup t.all_files last = some full
  | t, d :: rest, full => ∃ c, alookup t.all_folders d = some c ∧ reachesFile c rest full

/-- Insertion never changes the root node's relative path. -/
lemma insertPath_relativePath (t : TreeNode) (pos parts : List String)
    (full : String) : (insertPath t pos parts full).relativePath = t.relativePath := by
  match parts with
  | [] => cases t <;> rfl
  | [last] => cases t <;> rfl
  | d :: e :: rest => cases t <;> rfl

/-- The inserted path is reachable in the updated tree. -/
lemma reachesFile_insertPath_self (parts : List String) (t : TreeNode)
    (pos : List String) (full : String) (h : parts ≠ []) :
    reachesFile (insertPath t pos parts full) parts full := by
  induction parts generalizing t pos with
  | nil => exact absurd rfl h
  | cons d rest ih =>
      cases rest with
      | nil =>
          cases t with
          | mk n rp folders files =>
              simp [insertPath, reachesFile, TreeNode.all_files, alookup_ainsert_self]
      | cons e rest2 =>
          cases t with
          | mk n rp folders files =>
              refine ⟨insertPath
                  (match alookup folders d with
                    | some c => c
                    | none => TreeNode.mk d (pyJoin (pos ++ [d])) [] [])
                  (pos ++ [d]) (e :: rest2) full, ?_, ?_⟩
              · simp [insertPath, TreeNode.all_folders, alookup_ainsert_self]
              · exact ih _ _ (by simp)

/-- Inserting a path with a different component list preserves every
other reachable file entry. -/
lemma reachesFile_insertPath_other (parts : List String) (t : TreeNode)
    (pos parts2 : List String) (full full2 : String)
    (hne : parts2 ≠ parts) (h : reachesFile t parts2 full2) :
    reachesFile (insertPath t pos parts full) parts2 full2 := by
  induction parts generalizing t pos parts2 with
  | nil => simpa [insertPath] using h
  | cons d rest ih =>
      cases t with
      | mk n rp folders files =>
          cases rest with
          | nil =>
              cases parts2 with
              | nil => exact absurd h (by simp [reachesFile])
              | cons d2 rest2 =>
                  cases rest2 with
                  | nil =>
                      have hd2 : d2 ≠ d := by
                        intro hdd
                        exact hne (by rw [hdd])
                      simpa [insertPath, reachesFile, TreeNode.all_files,
                        alookup_ainsert_ne files d full d2 hd2] using h
                  | cons e2 rest3 =>
                      simpa [insertPath, reachesFile, TreeNode.all_folders] using h
          | cons e rest2 =>
              cases parts2 with
              | nil => exact absurd h (by simp [reachesFile])
              | cons d2 rest3 =>
                  cases rest3 with
                  | nil =>
                      simpa [insertPath, reachesFile, TreeNode.all_files] using h
                  | cons e2 rest4 =>
                      obtain ⟨c, hc, hcr⟩ := h
                      by_cases hd2 : d2 = d
                      · subst hd2
                        refine ⟨insertPath c (pos ++ [d2]) (e :: rest2) full, ?_, ?_⟩
                        · simp only [TreeNode.all_folders] at hc
                          simp [insertPath, TreeNode.all_folders, hc,
                            alookup_ainsert_self]
                        · refine ih c (pos ++ [d2]) (e2 :: rest4) ?_ hcr
                          intro hEq
                          exact hne (by rw [hEq])
                      · refine ⟨c, ?_, hcr⟩
                        simp only [TreeNode.all_folders] at hc
                        simp [insertPath, TreeNode.all_folders,
                          alookup_ainsert_ne _ _ _ _ hd2, hc]

/-- Every non-root node reachable from `t` by components `q` carries the
relative path obtained by '/'-joining its position (`pos` is `t`'s own
position from the root). -/
def Coherent (t : TreeNode) (pos : List String) : Prop :=
  ∀ q m, q ≠ [] → descend t q = some m → m.relativePath = pyJoin (pos ++ q)

/-- Nodes without child folders are trivially coherent. -/
lemma coherent_of_no_folders (n rp : String) (files : List (String × String))
    (pos : List String) : Coherent (TreeNode.mk n rp [] files) pos := by
  intro q m hq hd
  cases q with
  | nil => exact absurd rfl hq
  | cons d ds => simp [descend, TreeNode.all_folders, alookup] at hd

/-- Insertion by `__updateTree` preserves coherence: reused child nodes
keep their paths and fresh ones are created with the '/'-join of the
components consumed so far. -/
lemma coherent_insertPath (parts : List String) (t : TreeNode) (pos : List String)
    (full : String) (h : Coherent t pos) :
    Coherent (insertPath t pos parts full) pos := by
  induction parts generalizing t pos with
  | nil =>
      cases t with
      | mk n rp folders files => simpa [insertPath] using h
  | cons d rest ih =>
      cases rest with
      | nil =>
          cases t with
          | mk n rp folders files =>
              intro q m hq hd
              refine h q m hq ?_
              cases q with
              | nil => exact absurd rfl hq
              | cons d2 ds =>
                  simpa [insertPath, descend, TreeNode.all_folders] using hd
      | cons e rest2 =>
          cases t with
          | mk n rp folders files =>
              intro q m hq hd
              cases q with
              | nil => exact absurd rfl hq
              | cons d2 ds =>
                  by_cases hdd : d2 = d
                  · subst hdd
                    simp only [insertPath, descend, TreeNode.all_folders,
                      alookup_ainsert_self] at hd
                    have hchild : Coherent
                        (match alookup folders d2 with
                          | some c => c
                          | none => TreeNode.mk d2 (pyJoin (pos ++ [d2])) [] [])
                        (pos ++ [d2]) := by
                      cases hc : alookup folders d2 with
                      | none =>
                          exact coherent_of_no_folders _ _ _ _
                      | some c =>
                          intro q2 m2 hq2 hd2
                          have hstep : descend (TreeNode.mk n rp folders files)
                              (d2 :: q2) = some m2 := by
                            simp [descend, TreeNode.all_folders, hc, hd2]
                          have hres := h (d2 :: q2) m2 (by simp) hstep
                          rw [hres]
                          congr 1
                          simp
                    cases ds with
                    | nil =>
                        simp only [descend, Option.some.injEq] at hd
                        subst hd
                        rw [insertPath_relativePath]
                        cases hc : alookup folders d2 with
                        | none => simp [hc, TreeNode.relativePath]
                        | some c =>
                            have hstep : descend (TreeNode.mk n rp folders files)
                                [d2] = some c := by
                              simp [descend, TreeNode.all_folders, hc]
                            have hres := h [d2] c (by simp) hstep
                            simp [hc, hres]
                    | cons e2 ds2 =>
                        have hco2 := ih _ (pos ++ [d2]) hchild
                        have hres := hco2 (e2 :: ds2) m (by simp) hd
                        rw [hres]
                        congr 1
                        simp
                  · refine h (d2 :: ds) m hq ?_
                    simpa [insertPath, descend, TreeNode.all_folders,
                      alookup_ainsert_ne _ _ _ _ hdd] using hd

/-- Intermediate nodes along a reachable file path exist. -/
lemma reachesFile_descend_take (parts : List String) (t : TreeNode) (full : String)
    (h : reachesFile t parts full) :
    ∀ k : Nat, k + 1 < parts.length → ∃ m, descend t (parts.take (k + 1)) = some m := by
  induction parts generalizing t with
  | nil => exact absurd h (by simp [reachesFile])
  | cons d rest ih =>
      intro k hk
      cases rest with
      | nil => simp at hk
      | cons e rest2 =>
          simp only [reachesFile] at h
          obtain ⟨c, hc, hcr⟩ := h
          cases k with
          | zero => exact ⟨c, by simp [descend, hc]⟩
          | succ k2 =>
              obtain ⟨m, hm⟩ := ih c hcr k2 (by simpa using hk)
              exact ⟨m, by simpa [descend, hc] using hm⟩

/-- The default value of `getLastD` is irrelevant on non-empty lists. -/
lemma getLastD_irrel (x : String) (xs : List String) (c c2 : String) :
    (x :: xs).getLastD c = (x :: xs).getLastD c2 := rfl

/-- Recursive file reachability is the claim's descent property: walk
the directory components to a node, then look the file name up there. -/
lemma reachesFile_iff_descend (parts : List String) (t : TreeNode) (full : String)
    (h : parts ≠ []) :
    reachesFile t parts full ↔
      ∃ n, descend t parts.dropLast = some n ∧
        alookup n.all_files (parts.getLastD "") = some full := by
  induction parts generalizing t with
  | nil => exact absurd rfl h
  | cons d rest ih =>
      cases rest with
      | nil => simp [reachesFile, descend]
      | cons e rest2 =>
          simp only [reachesFile]
          constructor
          · rintro ⟨c, hc, hcr⟩
            obtain ⟨n2, hn2, hf⟩ := (ih c (by simp)).mp hcr
            refine ⟨n2, ?_, ?_⟩
            · simp [List.dropLast, descend, hc, hn2]
            · rw [show (d :: e :: rest2).getLastD "" = (e :: rest2).getLastD "" from
                getLastD_irrel e rest2 d ""]
              exact hf
          · rintro ⟨n2, hn2, hf⟩
            simp only [List.dropLast, descend] at hn2
            cases hc : alookup (TreeNode.all_folders t) d with
            | none => rw [hc] at hn2; exact absurd hn2 (by simp)
            | some c =>
                rw [hc] at hn2
                refine ⟨c, rfl, (ih c (by simp)).mpr ⟨n2, hn2, ?_⟩⟩
                rw [show (d :: e :: rest2).getLastD "" = (e :: rest2).getLastD "" from
                  getLastD_irrel e rest2 d ""] at hf
                exact hf

/-- Python `split` never returns an empty list. -/
lemma pySplit_ne_nil (p : String) : pySplit p ≠ [] := by
  unfold pySplit
  intro h
  have h2 := List.map_eq_nil.mp h
  rw [List.splitOn] at h2
  exact List.splitOnP_ne_nil _ _ h2

/-- Splitting on '/' is injective on strings. -/
lemma pySplit_injective (p q : String) (h : pySplit p = pySplit q) : p = q := by
  have hmap : ∀ l : List (List Char),
      (l.map (fun cs => String.mk cs)).map String.data = l := by
    intro l
    induction l with
    | nil => rfl
    | cons a as ih => simp [ih]
  have h2 : p.data.splitOn '/' = q.data.splitOn '/' := by
    have h3 := congrArg (List.map String.data) h
    unfold pySplit at h3
    rwa [hmap, hmap] at h3
  have h4 : p.data = q.data := by
    calc p.data = ['/'].intercalate (p.data.splitOn '/') :=
          (List.intercalate_splitOn p.data '/').symm
      _ = ['/'].intercalate (q.data.splitOn '/') := by rw [h2]
      _ = q.data := List.intercalate_splitOn q.data '/'
  cases p with
  | mk pd =>
      cases q with
      | mk qd => exact congrArg String.mk (by simpa using h4)

/-- Dictionary assignment keeps the key list duplicate-free. -/
lemma nodup_dkeys_ainsert {α : Type} (d : List (String × α)) (k : String) (v : α)
    (h : (dkeys d).Nodup) : (dkeys (ainsert d k v)).Nodup := by
  induction d with
  | nil => simp [ainsert, dkeys]
  | cons hd tl ih =>
      obtain ⟨k0, v0⟩ := hd
      simp only [dkeys, List.map_cons, List.nodup_cons] at h
      obtain ⟨hk0, htl⟩ := h
      by_cases h0 : k0 = k
      · subst h0
        have hin : ainsert ((k0, v0) :: tl) k0 v = (k0, v) :: tl := by
          simp [ainsert]
        rw [hin]
        simp only [dkeys, List.map_cons, List.nodup_cons]
        exact ⟨hk0, htl⟩
      · simp only [ainsert, if_neg h0, dkeys, List.map_cons, List.nodup_cons]
        refine ⟨?_, ih htl⟩
        intro hmem
        rcases (mem_dkeys_ainsert tl k v k0).mp hmem with h1 | h1
        · exact hk0 h1
        · exact h0 h1

/-- The adjust-or-create pattern keeps the key list duplicate-free. -/
lemma nodup_dkeys_aadjust (d : List (String × WbGitFileState)) (key : String)
    (f : WbGitFileState → WbGitFileState) (h : (dkeys d).Nodup) :
    (dkeys (aadjust d key f)).Nodup := by
  unfold aadjust
  cases alookup d key <;> exact nodup_dkeys_ainsert _ _ _ h

/-- Folding key-list-preserving steps keeps the key list duplicate-free. -/
lemma nodup_dkeys_foldl {α β : Type} (g : List (String × α) → β → List (String × α))
    (hg : ∀ d b, (dkeys d).Nodup → (dkeys (g d b)).Nodup)
    (l : List β) (d0 : List (String × α)) (h0 : (dkeys d0).Nodup) :
    (dkeys (l.foldl g d0)).Nodup := by
  induction l generalizing d0 with
  | nil => exact h0
  | cons b bs ih => exact ih _ (hg d0 b h0)

/-- The status map computed by `__calculateStatus` has duplicate-free keys. -/
lemma nodup_dkeys_calculateStatus (r : RepoData) :
    (dkeys (calculateStatus r).1).Nodup := by
  unfold calculateStatus
  refine nodup_dkeys_foldl _ (fun d b h => nodup_dkeys_aadjust _ _ _ h) _ _ ?_
  refine nodup_dkeys_foldl _ (fun d b h => nodup_dkeys_aadjust _ _ _ h) _ _ ?_
  refine nodup_dkeys_foldl _ (fun d b h => nodup_dkeys_aadjust _ _ _ h) _ _ ?_
  refine nodup_dkeys_foldl _ (fun d b h => nodup_dkeys_ainsert _ _ _ h) _ _ ?_
  simp [dkeys]

/-- Later insertions with other component lists preserve reachability. -/
lemma foldl_updateTree_preserves (ps : List String) (t0 : TreeNode)
    (parts2 : List String) (full2 : String)
    (h : reachesFile t0 parts2 full2) (hne : ∀ q ∈ ps, pySplit q ≠ parts2) :
    reachesFile (ps.foldl (fun t p => updateTree p t) t0) parts2 full2 := by
  induction ps generalizing t0 with
  | nil => exact h
  | cons p rest ih =>
      refine ih (updateTree p t0) ?_ (fun q hq => hne q (by simp [hq]))
      exact reachesFile_insertPath_other (pySplit p) t0 [] parts2 p full2
        (Ne.symm (hne p (by simp))) h

/-- Folding `__updateTree` over duplicate-free paths keeps the whole
tree coherent and makes every inserted path reachable. -/
lemma foldl_updateTree_spec (paths : List String) (t0 : TreeNode)
    (hcoh : Coherent t0 []) (hnd : paths.Nodup) :
    Coherent (paths.foldl (fun t p => updateTree p t) t0) [] ∧
    ∀ p ∈ paths,
      reachesFile (paths.foldl (fun t p => updateTree p t) t0) (pySplit p) p := by
  induction paths generalizing t0 with
  | nil => exact ⟨hcoh, by simp⟩
  | cons p ps ih =>
      simp only [List.nodup_cons] at hnd
      obtain ⟨hp, hps⟩ := hnd
      have hco1 : Coherent (updateTree p t0) [] :=
        coherent_insertPath (pySplit p) t0 [] p hcoh
      obtain ⟨hcoF, hrF⟩ := ih (updateTree p t0) hco1 hps
      refine ⟨hcoF, ?_⟩
      intro q hq
      simp only [List.foldl_cons]
      rcases List.mem_cons.mp hq with rfl | hq2
      · refine foldl_updateTree_preserves ps (updateTree q t0) (pySplit q) q
          (reachesFile_insertPath_self (pySplit q) t0 [] q (pySplit_ne_nil q)) ?_
        intro q2 hq2 hEq
        exact hp (pySplit_injective q2 q hEq ▸ hq2)
      · exact hrF q hq2

/-- C4.  After `updateState`, for every repository-relative path in the
flat status map, splitting it on '/' and descending from the root
through `all_folders` by each directory component reaches a node whose
`all_files` maps the final component to that full path, and every
intermediate node on the way carries the '/'-join of the components
leading to it as its relative path. -/
theorem updateState_tree_contains_all_paths (r : RepoData) (p q : GitProject)
    (hq : p.updateState r = .ok q) :
    ∀ path ∈ dkeys q.all_file_state,
      (∃ n, descend q.tree ((pySplit path).dropLast) = some n ∧
        alookup n.all_files ((pySplit path).getLastD "") = some path) ∧
      (∀ k : Nat, k + 1 < (pySplit path).length →
        ∃ m, descend q.tree ((pySplit path).take (k + 1)) = some m ∧
          m.relativePath = pyJoin ((pySplit path).take (k + 1))) := by
  unfold GitProject.updateState at hq
  by_cases hdi : p.dirty_index = true
  · rw [if_pos hdi] at hq
    exact absurd hq (by simp)
  · rw [if_neg hdi] at hq
    have hq2 := Except.ok.inj hq
    subst hq2
    have hroot : Coherent (TreeNode.mk p.project_name "." [] []) [] :=
      coherent_of_no_folders _ _ _ _
    obtain ⟨hcoF, hrF⟩ := foldl_updateTree_spec (dkeys (calculateStatus r).1)
      (TreeNode.mk p.project_name "." [] []) hroot (nodup_dkeys_calculateStatus r)
    intro path hpath
    have hreach := hrF path hpath
    constructor
    · exact (reachesFile_iff_descend (pySplit path) _ path (pySplit_ne_nil path)).mp
        hreach
    · intro k hk
      obtain ⟨m, hm⟩ := reachesFile_descend_take (pySplit path) _ path hreach k hk
      refine ⟨m, hm, ?_⟩
      have htake : (pySplit path).take (k + 1) ≠ [] := by
        intro hEq
        rcases List.take_eq_nil_iff.mp hEq with h1 | h1
        · exact absurd h1 (by simp)
        · exact pySplit_ne_nil path h1
      have hres := hcoF ((pySplit path).take (k + 1)) m htake hm
      simpa using hres

/-- Repository contents with a nested and a top-level file, for the C4
witness. -/
def witnessRepoTwo : RepoData :=
  { index_entries := ["d/f", "g"], head_vs_index := [], index_vs_working := [],
    untracked_files := [] }

/-- Fresh project state for the C4 witness. -/
def witnessProjFresh : GitProject :=
  { project_name := "w", all_file_state := [], tree := TreeNode.mk "w" "." [] [],
    dirty_index := false, stale_index := false, num_staged_files := 0 }

/-- Refreshed project state for the C4 witness. -/
def witnessProjRefreshed : GitProject :=
  match witnessProjFresh.updateState witnessRepoTwo with
  | .ok q => q
  | .error _ => witnessProjFresh

/-- Witness for C4 at the nested path "d/f". -/
theorem updateState_tree_contains_all_paths_witness :
    (∃ n, descend witnessProjRefreshed.tree ((pySplit "d/f").dropLast) = some n ∧
      alookup n.all_files ((pySplit "d/f").getLastD "") = some "d/f") ∧
    (∃ m, descend witnessProjRefreshed.tree ((pySplit "d/f").take 1) = some m ∧
      m.relativePath = pyJoin ((pySplit "d/f").take 1)) := by
  have h := updateState_tree_contains_all_paths witnessRepoTwo witnessProjFresh
    witnessProjRefreshed rfl "d/f" (by decide)
  exact ⟨h.1, h.2 0 (by decide)⟩
